import Mathlib

/-!
Shallow embedding of `dashboard.py` (Malnutrition dashboard).

The dashboard loads a table of child records, filters it to the four
recognized growth-status categories, reconciles dataset state names against
the canonical names of a geographic boundary source (manual override table
first, then `difflib.get_close_matches` with `n=1, cutoff=0.6`), and then
renders five panels; panel 1 aggregates counts / totals / percentages per
geographic level.

Numeric modelling: similarity scores are the exact rationals
`2*M / (len(a)+len(b))`.  The source compares such scores (as machine
floats) with `<=` / `<`; here score comparisons are carried out exactly, as
cross-multiplied natural-number comparisons of the unnormalized fractions,
and `ratioQ` exposes the same score as a `ℚ` for the statements.  Chart
percentages are exact rationals.
-/

namespace Dashboard

/-! ### difflib.SequenceMatcher model

`SequenceMatcher(None, a, b)` (as built by `get_close_matches`) has no junk
elements for this program's inputs: the `autojunk` popularity heuristic
only fires when `len(b) >= 200`, far above any state-name length.  So the
plain Ratcliff–Obershelp recursion is the exact semantics of `ratio()`. -/

/-- Length of the longest common prefix of two character lists. -/
def commonPrefixLen : List Char → List Char → Nat
  | a :: as, b :: bs => if a = b then commonPrefixLen as bs + 1 else 0
  | _, _ => 0

/-- `find_longest_match` over whole sequences: a triple `(i, j, k)` with
`a[i:i+k] = b[j:j+k]`, `k` maximal, ties broken by least `i`, then least `j`
(the documented difflib contract). -/
def longestMatch (a b : List Char) : Nat × Nat × Nat :=
  (List.range a.length).foldl (fun best i =>
    (List.range b.length).foldl (fun best j =>
      let k := commonPrefixLen (a.drop i) (b.drop j)
      if k > best.2.2 then (i, j, k) else best) best) (0, 0, 0)

/-- Total size of the matching blocks (the `get_matching_blocks` recursion),
with explicit fuel; `a.length + b.length + 1` is always enough since every
recursive call strictly shrinks the combined length. -/
def matchTotal : Nat → List Char → List Char → Nat
  | 0, _, _ => 0
  | fuel + 1, a, b =>
    let m := longestMatch a b
    if m.2.2 = 0 then 0
    else
      matchTotal fuel (a.take m.1) (b.take m.2.1) + m.2.2 +
        matchTotal fuel (a.drop (m.1 + m.2.2)) (b.drop (m.2.1 + m.2.2))

/-- Number of matched characters between `a` and `b`. -/
def matchesCount (a b : List Char) : Nat := matchTotal (a.length + b.length + 1) a b

/-- The score `SequenceMatcher(None, a, b).ratio()` as an exact fraction
`(numerator, denominator) = (2*M, len(a)+len(b))`; the empty/empty case is
`1.0` in the source, represented `(1, 1)`.  The denominator is positive. -/
def scorePair (a b : List Char) : Nat × Nat :=
  if a.length + b.length = 0 then (1, 1)
  else (2 * matchesCount a b, a.length + b.length)

/-- The same similarity score as a rational number, for specification
statements. -/
def ratioQ (a b : List Char) : ℚ :=
  ((scorePair a b).1 : ℚ) / ((scorePair a b).2 : ℚ)

/-- Comparison `p ≤ q` of two scores, by cross-multiplication. -/
def fracLe (p q : Nat × Nat) : Prop := p.1 * q.2 ≤ q.1 * p.2

/-- Strict comparison `p < q` of two scores, by cross-multiplication. -/
def fracLt (p q : Nat × Nat) : Prop := p.1 * q.2 < q.1 * p.2

/-- Score equality, by cross-multiplication. -/
def fracEq (p q : Nat × Nat) : Prop := p.1 * q.2 = q.1 * p.2

instance (p q : Nat × Nat) : Decidable (fracLe p q) := by unfold fracLe; infer_instance
instance (p q : Nat × Nat) : Decidable (fracLt p q) := by unfold fracLt; infer_instance
instance (p q : Nat × Nat) : Decidable (fracEq p q) := by unfold fracEq; infer_instance

/-- Python's lexicographic string comparison, on the underlying character
lists (code-point order; a strict prefix is smaller). -/
def charListLt : List Char → List Char → Bool
  | [], [] => false
  | [], _ :: _ => true
  | _ :: _, [] => false
  | a :: as, b :: bs => if a = b then charListLt as bs else decide (a < b)

/-- Python tuple comparison on the `(score, candidate)` pairs that
`get_close_matches` hands to `max`: by score first, then by the candidate
string. -/
def tupLt (p q : (Nat × Nat) × String) : Prop :=
  fracLt p.1 q.1 ∨ (fracEq p.1 q.1 ∧ charListLt p.2.data q.2.data = true)

instance (p q : (Nat × Nat) × String) : Decidable (tupLt p q) := by
  unfold tupLt; infer_instance

/-- Python's `max` over a nonempty list: keep the current best, replace it
exactly when a strictly greater element appears. -/
def pyMax (c : (Nat × Nat) × String) (cs : List ((Nat × Nat) × String)) :
    (Nat × Nat) × String :=
  cs.foldl (fun best x => if tupLt best x then x else best) c

/-- `difflib.get_close_matches(word, possibilities, n=1, cutoff)`: the single
best-scoring candidate with score at least `cutoff`, if any.  The
`real_quick_ratio`/`quick_ratio` guards of the source are upper bounds of
`ratio`, so acceptance is exactly `cutoff ≤ ratio`; with `n = 1` the source
takes `max` over the scored candidates. -/
def get_close_matches1 (word : String) (possibilities : List String)
    (cutoff : Nat × Nat) : Option String :=
  match possibilities.filter
      (fun x => decide (fracLe cutoff (scorePair x.data word.data))) with
  | [] => none
  | c :: cs =>
      some (pyMax (scorePair c.data word.data, c)
        (cs.map fun x => (scorePair x.data word.data, x))).2

/-! ### Geography reconciler (`state_fix_map` construction and application) -/

/-- The manually curated correction table of the source. -/
def manual_fix : List (String × String) := [("Odisha", "Orissa")]

/-- The mapping chosen for one mismatched state name: the manual table is
consulted first; otherwise `difflib.get_close_matches(state, geojson_states,
n=1, cutoff=0.6)`, whose result is used only when nonempty. -/
def fixFor (geo : List String) (state : String) : Option String :=
  match manual_fix.lookup state with
  | some t => some t
  | none => get_close_matches1 state geo (3, 5)

/-- The rename mapping built by the loop over
`mismatches = csv_states - geojson_states`. -/
def state_fix_map (csvStates geo : List String) : List (String × String) :=
  (csvStates.filter fun s => !(geo.contains s)).filterMap
    fun s => (fixFor geo s).map fun t => (s, t)

/-- `pandas.Series.replace` with a dict: a value is replaced exactly when it
is a key of the mapping. -/
def applyFix (m : List (String × String)) (s : String) : String :=
  match m.lookup s with
  | some t => t
  | none => s

/-! ### Data model

One row of `Child_data.csv` after load.  The optional maternal columns are
modelled by dataset-level presence flags (`pandas` column existence) next to
per-row values. -/

structure Record where
  State : String
  District : String
  Age_in_months : ℚ
  Sex : String
  Height_cm : ℚ
  Weight_kg : ℚ
  MUAC_cm : ℚ
  Growth_status : String
  Immunization_status : String
  Supplementary_nutrition_received : String
  Mothers_weight_kg : ℚ
  Mothers_height_cm : ℚ
  Maternal_anemia_status : String
deriving DecidableEq

/-- The in-memory frame: its rows, which optional columns exist, and the
`Mother_BMI` column (absent until tab 5 adds it). -/
structure Dataset where
  rows : List Record
  hasMothersWeight : Bool
  hasMothersHeight : Bool
  hasAnemia : Bool
  Mother_BMI : Option (List ℚ)
deriving DecidableEq

/-- `mal_types` of the source. -/
def mal_types : List String := ["Stunted", "Wasted", "Underweight"]

/-- `df = df[df["Growth_status"].isin(mal_types + ["Normal"])]`. -/
def filterGrowth (ds : Dataset) : Dataset :=
  { ds with rows := ds.rows.filter fun r =>
      (mal_types ++ ["Normal"]).contains r.Growth_status }

/-- The state-name reconciliation pass: build `state_fix_map` from the
distinct dataset states and the canonical geojson names, and apply it to the
`State` column when nonempty. -/
def renameStates (geo : List String) (ds : Dataset) : Dataset :=
  let m := state_fix_map ((ds.rows.map Record.State).dedup) geo
  if m = [] then ds
  else { ds with rows := ds.rows.map fun r => { r with State := applyFix m r.State } }

/-- The whole reconciliation step (lines 46–58 of the source). -/
def reconcile (geo : List String) (ds : Dataset) : Dataset := renameStates geo ds

/-- Filter pass followed by the reconciliation pass (the state of `df` when
the tabs start rendering). -/
def prepare (geo : List String) (ds : Dataset) : Dataset :=
  reconcile geo (filterGrowth ds)

/-! ### Aggregator (tab 1) -/

/-- The two values of the `st.selectbox("Aggregate by:", ...)` widget. -/
inductive Level where
  | State
  | District
deriving DecidableEq

/-- The grouping column of the chosen level. -/
def placeOf : Level → Record → String
  | Level.State, r => r.State
  | Level.District, r => r.District

/-- One row of the merged aggregate frame
(`agg = agg.merge(total, on=level)` plus the `percentage` column). -/
structure AggRow where
  place : String
  status : String
  count : Nat
  total : Nat
  percentage : ℚ
deriving DecidableEq

/-- The `(level value, Growth_status)` key of each record. -/
def pairList (l : Level) (rows : List Record) : List (String × String) :=
  rows.map fun r => (placeOf l r, r.Growth_status)

/-- Group size of `df.groupby([level, "Growth_status"]).size()` at one key. -/
def countOf (l : Level) (rows : List Record) (g c : String) : Nat :=
  (rows.filter fun r => placeOf l r == g && r.Growth_status == c).length

/-- Group size of `df.groupby(level).size()` at one key. -/
def totalOf (l : Level) (rows : List Record) (g : String) : Nat :=
  (rows.filter fun r => placeOf l r == g).length

/-- The merged aggregate frame: one row per `(level value, Growth_status)`
group present in the data, carrying its count, the level-group total
attached by the merge, and `percentage = 100 * count / total`.  (pandas
sorts the group keys; the key order is irrelevant to every property stated
below, so first-occurrence order of the distinct keys is used.) -/
def tab1Agg (l : Level) (rows : List Record) : List AggRow :=
  (pairList l rows).dedup.map fun gc =>
    { place := gc.1
      status := gc.2
      count := countOf l rows gc.1 gc.2
      total := totalOf l rows gc.1
      percentage := 100 * (countOf l rows gc.1 gc.2 : ℚ) / (totalOf l rows gc.1 : ℚ) }

/-! ### Panels

Each panel is modelled as the data it hands to the plotting calls, paired
with the dataset as the panel leaves it.  `merge`, `sort_values`, `groupby`
and boolean-mask selection in pandas return fresh frames, so tab 1's
`subset["highlight"] = ...` column lands on the derived frame, never on
`df`; tab 5 is the only place the source assigns into `df` after the
initial pass. -/

/-- Tab 1: aggregate, select one growth status, and add the thresholded
`highlight` column (threshold 20) to that derived subset. -/
def tab1Run (level : Level) (mal_type : String) (ds : Dataset) :
    Dataset × List (AggRow × ℚ) :=
  let agg := tab1Agg level ds.rows
  let subset := agg.filter fun a => a.status == mal_type
  let withHighlight := subset.map fun a =>
    (a, if 20 ≤ a.percentage then a.percentage else 0)
  (ds, withHighlight)

/-- Tab 2: age histogram and sex pie data. -/
def tab2Run (ds : Dataset) : Dataset × (List ℚ × List String) :=
  (ds, (ds.rows.map Record.Age_in_months, ds.rows.map Record.Sex))

/-- Tab 3: mean height/weight by age, and the MUAC histogram data. -/
def tab3Run (ds : Dataset) : Dataset × (List (ℚ × ℚ × ℚ) × List ℚ) :=
  let avg_hw := (ds.rows.map Record.Age_in_months).dedup.map fun a =>
    let grp := ds.rows.filter fun r => r.Age_in_months == a
    (a, ((grp.map Record.Height_cm).sum / (grp.length : ℚ),
         (grp.map Record.Weight_kg).sum / (grp.length : ℚ)))
  (ds, (avg_hw, ds.rows.map Record.MUAC_cm))

/-- Tab 4: stacked-bar counts by `(State, Immunization_status)` and by
`(State, Supplementary_nutrition_received)`. -/
def tab4Run (ds : Dataset) :
    Dataset × (List ((String × String) × Nat) × List ((String × String) × Nat)) :=
  let immun := (ds.rows.map fun r => (r.State, r.Immunization_status)).dedup.map
    fun k => (k, (ds.rows.filter fun r =>
      (r.State, r.Immunization_status) == k).length)
  let sup := (ds.rows.map fun r =>
      (r.State, r.Supplementary_nutrition_received)).dedup.map
    fun k => (k, (ds.rows.filter fun r =>
      (r.State, r.Supplementary_nutrition_received) == k).length)
  (ds, (immun, sup))

/-- The derived maternal body-mass index of one record. -/
def bmiOf (r : Record) : ℚ := r.Mothers_weight_kg / ((r.Mothers_height_cm / 100) ^ 2)

/-- Tab 5: `df["Mother_BMI"] = ...` is executed only when both maternal
columns exist; otherwise the panel is skipped and `df` untouched. -/
def tab5Run (ds : Dataset) : Dataset :=
  if ds.hasMothersWeight && ds.hasMothersHeight then
    { ds with Mother_BMI := some (ds.rows.map bmiOf) }
  else ds

/-- Running the five tabs in order, threading the dataset through. -/
def runTabs (level : Level) (mal_type : String) (ds : Dataset) : Dataset :=
  let ds1 := (tab1Run level mal_type ds).1
  let ds2 := (tab2Run ds1).1
  let ds3 := (tab3Run ds2).1
  let ds4 := (tab4Run ds3).1
  tab5Run ds4

/-- A concrete record used by the closed witness statements. -/
def sampleRecord : Record :=
  { State := "Kerala"
    District := "Idukki"
    Age_in_months := 24
    Sex := "F"
    Height_cm := 80
    Weight_kg := 10
    MUAC_cm := 13
    Growth_status := "Stunted"
    Immunization_status := "Complete"
    Supplementary_nutrition_received := "Yes"
    Mothers_weight_kg := 50
    Mothers_height_cm := 150
    Maternal_anemia_status := "No" }

/-- A concrete one-row dataset whose state is "Odisha", used in closed
statements. -/
def odishaDataset : Dataset :=
  { rows := [{ sampleRecord with State := "Odisha" }]
    hasMothersWeight := true
    hasMothersHeight := true
    hasAnemia := false
    Mother_BMI := none }

/-- A concrete two-row dataset, used in closed statements. -/
def sampleDataset : Dataset :=
  { rows := [sampleRecord, { sampleRecord with State := "Odisha", District := "Puri" }]
    hasMothersWeight := true
    hasMothersHeight := true
    hasAnemia := true
    Mother_BMI := none }

/-! ### Association-list helper lemmas -/

theorem contains_eq_true_iff {l : List String} {s : String} :
    l.contains s = true ↔ s ∈ l := List.elem_iff

theorem contains_eq_false_of_not_mem {l : List String} {s : String} (h : s ∉ l) :
    l.contains s = false := by
  by_contra hc
  simp only [Bool.not_eq_false] at hc
  exact h (contains_eq_true_iff.1 hc)

theorem lookup_eq_none_of_keys {l : List (String × String)} {s : String}
    (h : ∀ p ∈ l, p.1 ≠ s) : l.lookup s = none := by
  induction l with
  | nil => rfl
  | cons p ps ih =>
    obtain ⟨k, v⟩ := p
    have hp : k ≠ s := h (k, v) (List.mem_cons_self _ _)
    have hs : (s == k) = false := beq_eq_false_iff_ne.2 fun hs => hp hs.symm
    simp only [List.lookup, hs]
    exact ih fun q hq => h q (List.mem_cons_of_mem _ hq)

theorem mem_of_lookup_eq_some {l : List (String × String)} {s t : String}
    (h : l.lookup s = some t) : (s, t) ∈ l := by
  induction l with
  | nil => cases h
  | cons p ps ih =>
    obtain ⟨k, v⟩ := p
    by_cases hs : s = k
    · have hb : (s == k) = true := beq_iff_eq.2 hs
      simp only [List.lookup, hb] at h
      cases h
      exact hs ▸ List.mem_cons_self _ _
    · have hb : (s == k) = false := beq_eq_false_iff_ne.2 hs
      simp only [List.lookup, hb] at h
      exact List.mem_cons_of_mem _ (ih h)

/-! ### `state_fix_map` characterization -/

theorem mem_state_fix_map {csv geo : List String} {k v : String} :
    (k, v) ∈ state_fix_map csv geo ↔
      k ∈ csv ∧ k ∉ geo ∧ fixFor geo k = some v := by
  unfold state_fix_map
  simp only [List.mem_filterMap, List.mem_filter, Option.map_eq_some',
    Bool.not_eq_true', Prod.mk.injEq]
  constructor
  · rintro ⟨a, ⟨ha, hc⟩, t, hf, rfl, rfl⟩
    refine ⟨ha, fun hg => ?_, hf⟩
    rw [contains_eq_true_iff.2 hg] at hc
    cases hc
  · rintro ⟨ha, hg, hf⟩
    exact ⟨k, ⟨ha, contains_eq_false_of_not_mem hg⟩, v, hf, rfl, rfl⟩

theorem lookup_state_fix_map_eq (csv geo : List String) (s : String)
    (hgeo : s ∉ geo) :
    (state_fix_map csv geo).lookup s = if s ∈ csv then fixFor geo s else none := by
  induction csv with
  | nil => simp [state_fix_map]
  | cons c cs ih =>
    have hstep : state_fix_map (c :: cs) geo =
        if geo.contains c = false then
          ((fixFor geo c).map fun t => (c, t)).toList ++ state_fix_map cs geo
        else state_fix_map cs geo := by
      unfold state_fix_map
      rw [List.filter_cons]
      cases hc : geo.contains c with
      | false =>
        rw [if_pos (by decide), if_pos rfl, List.filterMap_cons]
        cases fixFor geo c <;> simp
      | true =>
        rw [if_neg (by decide), if_neg (by decide)]
    by_cases hsc : s = c
    · subst hsc
      rw [hstep, if_pos (contains_eq_false_of_not_mem hgeo)]
      cases hf : fixFor geo s with
      | none =>
        simp only [Option.map_none', Option.toList_none, List.nil_append]
        rw [ih]
        simp only [List.mem_cons, true_or, if_pos trivial]
        by_cases hs : s ∈ cs
        · rw [if_pos hs, hf]
        · rw [if_neg hs]
      | some t =>
        simp only [Option.map_some', Option.toList_some, List.singleton_append,
          List.lookup, beq_self_eq_true, List.mem_cons, true_or, if_pos trivial]
    · have hmem : s ∈ c :: cs ↔ s ∈ cs := by
        simp [List.mem_cons, hsc]
      rw [hstep]
      by_cases hc : geo.contains c = false
      · rw [if_pos hc]
        cases hf : fixFor geo c with
        | none => simpa [hmem] using ih
        | some t =>
          have hb : (s == c) = false := beq_eq_false_iff_ne.2 hsc
          simp only [Option.map_some', Option.toList_some, List.singleton_append,
            List.lookup, hb]
          simpa [hmem] using ih
      · rw [if_neg hc]
        simpa [hmem] using ih

theorem lookup_state_fix_map {csv geo : List String} {s : String}
    (hs : s ∈ csv) (hgeo : s ∉ geo) :
    (state_fix_map csv geo).lookup s = fixFor geo s := by
  rw [lookup_state_fix_map_eq csv geo s hgeo, if_pos hs]

theorem lookup_state_fix_map_of_not_mem_csv {csv geo : List String} {s : String}
    (hs : s ∉ csv) : (state_fix_map csv geo).lookup s = none := by
  apply lookup_eq_none_of_keys
  intro p hp hps
  obtain ⟨k, v⟩ := p
  cases hps
  exact hs (mem_state_fix_map.1 hp).1

/-! ### Order lemmas for the score/candidate tuples -/

theorem charListLt_irrefl (a : List Char) : charListLt a a = false := by
  induction a with
  | nil => rfl
  | cons x xs ih => simp [charListLt, ih]

theorem charListLt_trans : ∀ {a b c : List Char}, charListLt a b = true →
    charListLt b c = true → charListLt a c = true
  | [], _ :: _, _ :: _, _, _ => rfl
  | x :: xs, y :: ys, z :: zs, h1, h2 => by
    simp only [charListLt] at h1 h2 ⊢
    by_cases hxy : x = y
    · subst hxy
      rw [if_pos rfl] at h1
      by_cases hyz : x = z
      · subst hyz
        rw [if_pos rfl] at h2 ⊢
        exact charListLt_trans h1 h2
      · rwa [if_neg hyz] at h2 ⊢
    · rw [if_neg hxy] at h1
      have hxy' : x < y := of_decide_eq_true h1
      by_cases hyz : y = z
      · subst hyz
        rw [if_neg hxy]
        exact decide_eq_true hxy'
      · rw [if_neg hyz] at h2
        have hyz' : y < z := of_decide_eq_true h2
        have hxz : x < z := lt_trans hxy' hyz'
        rw [if_neg (ne_of_lt hxz)]
        exact decide_eq_true hxz

theorem charListLt_antisymm : ∀ {a b : List Char}, charListLt a b = false →
    charListLt b a = false → a = b
  | [], [], _, _ => rfl
  | [], _ :: _, h1, _ => by cases h1
  | _ :: _, [], _, h2 => by cases h2
  | x :: xs, y :: ys, h1, h2 => by
    simp only [charListLt] at h1 h2
    by_cases hxy : x = y
    · subst hxy
      rw [if_pos rfl] at h1 h2
      rw [charListLt_antisymm h1 h2]
    · rw [if_neg hxy] at h1
      rw [if_neg (fun h => hxy h.symm)] at h2
      have h1' : ¬ x < y := of_decide_eq_false h1
      have h2' : ¬ y < x := of_decide_eq_false h2
      exact absurd (le_antisymm (not_lt.1 h2') (not_lt.1 h1')) hxy

theorem fracLt_irrefl (p : Nat × Nat) : ¬ fracLt p p := by
  unfold fracLt
  exact lt_irrefl _

theorem fracLt_trans {a b c : Nat × Nat} (h1 : fracLt a b) (h2 : fracLt b c) :
    fracLt a c := by
  unfold fracLt at h1 h2 ⊢
  rcases Nat.eq_zero_or_pos c.2 with hc | hc
  · rw [hc, Nat.mul_zero] at h2 ⊢
    have ha2 : 0 < a.2 := by
      rcases Nat.eq_zero_or_pos a.2 with h | h
      · rw [h, Nat.mul_zero] at h1
        exact absurd h1 (Nat.not_lt_zero _)
      · exact h
    have hc1 : 0 < c.1 := Nat.pos_of_ne_zero fun h0 => by
      rw [h0, Nat.zero_mul] at h2
      exact absurd h2 (Nat.not_lt_zero _)
    exact Nat.mul_pos hc1 ha2
  · rcases Nat.eq_zero_or_pos b.2 with hb | hb
    · rw [hb, Nat.mul_zero] at h2
      exact absurd h2 (Nat.not_lt_zero _)
    · have key : a.1 * c.2 * b.2 < c.1 * a.2 * b.2 := by
        calc a.1 * c.2 * b.2 = a.1 * b.2 * c.2 := by ring
        _ < b.1 * a.2 * c.2 := mul_lt_mul_of_pos_right h1 hc
        _ = b.1 * c.2 * a.2 := by ring
        _ ≤ c.1 * b.2 * a.2 := Nat.mul_le_mul_right _ (le_of_lt h2)
        _ = c.1 * a.2 * b.2 := by ring
      exact lt_of_mul_lt_mul_right key (Nat.zero_le _)

theorem fracLt_of_fracEq_of_fracLt {a b c : Nat × Nat} (ha : 0 < a.2)
    (_hb : 0 < b.2) (h1 : fracEq a b) (h2 : fracLt b c) : fracLt a c := by
  unfold fracEq at h1
  unfold fracLt at h2 ⊢
  have key : a.1 * c.2 * b.2 < c.1 * a.2 * b.2 := by
    calc a.1 * c.2 * b.2 = a.1 * b.2 * c.2 := by ring
    _ = b.1 * a.2 * c.2 := by rw [h1]
    _ = b.1 * c.2 * a.2 := by ring
    _ < c.1 * b.2 * a.2 := mul_lt_mul_of_pos_right h2 ha
    _ = c.1 * a.2 * b.2 := by ring
  exact lt_of_mul_lt_mul_right key (Nat.zero_le _)

theorem fracLt_of_fracLt_of_fracEq {a b c : Nat × Nat} (_hb : 0 < b.2)
    (hc : 0 < c.2) (h1 : fracLt a b) (h2 : fracEq b c) : fracLt a c := by
  unfold fracLt at h1 ⊢
  unfold fracEq at h2
  have key : a.1 * c.2 * b.2 < c.1 * a.2 * b.2 := by
    calc a.1 * c.2 * b.2 = a.1 * b.2 * c.2 := by ring
    _ < b.1 * a.2 * c.2 := mul_lt_mul_of_pos_right h1 hc
    _ = b.1 * c.2 * a.2 := by ring
    _ = c.1 * b.2 * a.2 := by rw [h2]
    _ = c.1 * a.2 * b.2 := by ring
  exact lt_of_mul_lt_mul_right key (Nat.zero_le _)

theorem fracEq_trans_mid {a b c : Nat × Nat} (hb : 0 < b.2) (h1 : fracEq a b)
    (h2 : fracEq b c) : fracEq a c := by
  unfold fracEq at h1 h2 ⊢
  have key : a.1 * c.2 * b.2 = c.1 * a.2 * b.2 := by
    calc a.1 * c.2 * b.2 = a.1 * b.2 * c.2 := by ring
    _ = b.1 * a.2 * c.2 := by rw [h1]
    _ = b.1 * c.2 * a.2 := by ring
    _ = c.1 * b.2 * a.2 := by rw [h2]
    _ = c.1 * a.2 * b.2 := by ring
  exact Nat.eq_of_mul_eq_mul_right hb key

theorem tupLt_irrefl (p : (Nat × Nat) × String) : ¬ tupLt p p := by
  unfold tupLt
  rintro (h | ⟨-, h⟩)
  · exact fracLt_irrefl _ h
  · rw [charListLt_irrefl] at h
    cases h

theorem tupLt_trans {p q r : (Nat × Nat) × String} (hp : 0 < p.1.2)
    (hq : 0 < q.1.2) (hr : 0 < r.1.2) (h1 : tupLt p q) (h2 : tupLt q r) :
    tupLt p r := by
  unfold tupLt at h1 h2 ⊢
  rcases h1 with h1 | ⟨h1e, h1s⟩ <;> rcases h2 with h2 | ⟨h2e, h2s⟩
  · exact Or.inl (fracLt_trans h1 h2)
  · exact Or.inl (fracLt_of_fracLt_of_fracEq hq hr h1 h2e)
  · exact Or.inl (fracLt_of_fracEq_of_fracLt hp hq h1e h2)
  · exact Or.inr ⟨fracEq_trans_mid hq h1e h2e, charListLt_trans h1s h2s⟩

theorem fracEq_of_not_fracLt {p q : Nat × Nat} (h1 : ¬ fracLt p q)
    (h2 : ¬ fracLt q p) : fracEq p q := by
  unfold fracLt at h1 h2
  unfold fracEq
  omega

theorem tupLt_string_eq {p q : (Nat × Nat) × String} (h1 : ¬ tupLt p q)
    (h2 : ¬ tupLt q p) : p.2 = q.2 ∧ fracEq p.1 q.1 := by
  unfold tupLt at h1 h2
  push_neg at h1 h2
  have he : fracEq p.1 q.1 := fracEq_of_not_fracLt h1.1 h2.1
  have he' : fracEq q.1 p.1 := he.symm
  have hs1 : charListLt p.2.data q.2.data = false :=
    Bool.not_eq_true _ ▸ h1.2 he
  have hs2 : charListLt q.2.data p.2.data = false :=
    Bool.not_eq_true _ ▸ h2.2 he'
  have : p.2.data = q.2.data := charListLt_antisymm hs1 hs2
  exact ⟨String.ext this, he⟩

theorem tupLt_of_tupLt_of_not_tupLt {m x c : (Nat × Nat) × String}
    (hm : 0 < m.1.2) (hx : 0 < x.1.2) (hc : 0 < c.1.2)
    (h1 : tupLt m x) (h2 : ¬ tupLt c x) : tupLt m c := by
  unfold tupLt at h1 h2 ⊢
  push_neg at h2
  rcases Nat.lt_trichotomy (x.1.1 * c.1.2) (c.1.1 * x.1.2) with hxc | hxc | hxc
  · -- fracLt x c
    have hxc' : fracLt x.1 c.1 := hxc
    rcases h1 with h1 | ⟨h1e, _⟩
    · exact Or.inl (fracLt_trans h1 hxc')
    · exact Or.inl (fracLt_of_fracEq_of_fracLt hm hx h1e hxc')
  · -- fracEq x c
    have hxc' : fracEq x.1 c.1 := hxc
    have hnotcx : charListLt c.2.data x.2.data = false :=
      Bool.not_eq_true _ ▸ h2.2 hxc'.symm
    rcases h1 with h1 | ⟨h1e, h1s⟩
    · exact Or.inl (fracLt_of_fracLt_of_fracEq hx hc h1 hxc')
    · refine Or.inr ⟨fracEq_trans_mid hx h1e hxc', ?_⟩
      cases hxc2 : charListLt x.2.data c.2.data with
      | true => exact charListLt_trans h1s hxc2
      | false => rw [← charListLt_antisymm hxc2 hnotcx]; exact h1s
  · -- fracLt c x, contradicting h2.1
    exact absurd hxc h2.1

/-! ### `pyMax` (Python `max`) lemmas -/

theorem pyMax_mem (c : (Nat × Nat) × String) (cs : List ((Nat × Nat) × String)) :
    pyMax c cs ∈ c :: cs := by
  induction cs generalizing c with
  | nil => exact List.mem_cons_self _ _
  | cons x xs ih =>
    have hstep : pyMax c (x :: xs) = pyMax (if tupLt c x then x else c) xs := rfl
    by_cases hlt : tupLt c x
    · rw [if_pos hlt] at hstep
      rw [hstep]
      rcases List.mem_cons.1 (ih x) with h | h
      · rw [h]
        exact List.mem_cons_of_mem _ (List.mem_cons_self _ _)
      · exact List.mem_cons_of_mem _ (List.mem_cons_of_mem _ h)
    · rw [if_neg hlt] at hstep
      rw [hstep]
      rcases List.mem_cons.1 (ih c) with h | h
      · rw [h]
        exact List.mem_cons_self _ _
      · exact List.mem_cons_of_mem _ (List.mem_cons_of_mem _ h)

theorem pyMax_not_lt (c : (Nat × Nat) × String)
    (cs : List ((Nat × Nat) × String)) (hpos : ∀ y ∈ c :: cs, 0 < y.1.2) :
    ∀ x ∈ c :: cs, ¬ tupLt (pyMax c cs) x := by
  induction cs generalizing c with
  | nil =>
    intro x hx
    rcases List.mem_cons.1 hx with rfl | h
    · exact tupLt_irrefl _
    · cases h
  | cons y ys ih =>
    have hstep : pyMax c (y :: ys) = pyMax (if tupLt c y then y else c) ys := rfl
    have hcpos : 0 < c.1.2 := hpos c (List.mem_cons_self _ _)
    have hypos : 0 < y.1.2 :=
      hpos y (List.mem_cons_of_mem _ (List.mem_cons_self _ _))
    by_cases hlt : tupLt c y
    · rw [if_pos hlt] at hstep
      have hpos' : ∀ z ∈ y :: ys, 0 < z.1.2 := fun z hz =>
        hpos z (List.mem_cons_of_mem _ hz)
      have ihy := ih y hpos'
      have hmpos : 0 < (pyMax y ys).1.2 := hpos' _ (pyMax_mem y ys)
      intro x hx
      rw [hstep]
      rcases List.mem_cons.1 hx with rfl | hx
      · intro habs
        exact ihy _ (List.mem_cons_self _ _)
          (tupLt_trans hmpos hcpos hypos habs hlt)
      · exact ihy x hx
    · rw [if_neg hlt] at hstep
      have hpos' : ∀ z ∈ c :: ys, 0 < z.1.2 := by
        intro z hz
        rcases List.mem_cons.1 hz with rfl | hz
        · exact hcpos
        · exact hpos z (List.mem_cons_of_mem _ (List.mem_cons_of_mem _ hz))
      have ihc := ih c hpos'
      have hmpos : 0 < (pyMax c ys).1.2 := hpos' _ (pyMax_mem c ys)
      intro x hx
      rw [hstep]
      rcases List.mem_cons.1 hx with rfl | hx
      · exact ihc _ (List.mem_cons_self _ _)
      · rcases List.mem_cons.1 hx with rfl | hx
        · intro habs
          exact ihc _ (List.mem_cons_self _ _)
            (tupLt_of_tupLt_of_not_tupLt hmpos hypos hcpos habs hlt)
        · exact ihc x (List.mem_cons_of_mem _ hx)

/-! ### Specification of `get_close_matches1` -/

theorem scorePair_den_pos (a b : List Char) : 0 < (scorePair a b).2 := by
  unfold scorePair
  split
  · exact Nat.one_pos
  · next h => exact Nat.pos_of_ne_zero h

theorem fracLe_of_not_fracLt {p q : Nat × Nat} (h : ¬ fracLt p q) : fracLe q p := by
  unfold fracLt at h
  unfold fracLe
  omega

theorem fracLe_iff_ratio {p q : Nat × Nat} (hp : 0 < p.2) (hq : 0 < q.2) :
    fracLe p q ↔ (p.1 : ℚ) / (p.2 : ℚ) ≤ (q.1 : ℚ) / (q.2 : ℚ) := by
  unfold fracLe
  rw [div_le_div_iff₀ (by exact_mod_cast hp) (by exact_mod_cast hq)]
  exact_mod_cast Iff.rfl

theorem cutoff_le_ratioQ_iff {a b : List Char} :
    fracLe (3, 5) (scorePair a b) ↔ (3 : ℚ) / 5 ≤ ratioQ a b := by
  have h := fracLe_iff_ratio (p := (3, 5)) (q := scorePair a b)
    (by norm_num) (scorePair_den_pos a b)
  unfold ratioQ
  simpa using h

theorem ratioQ_le_ratioQ_of_not_fracLt {a b w : List Char}
    (h : ¬ fracLt (scorePair a w) (scorePair b w)) :
    ratioQ b w ≤ ratioQ a w := by
  have hle := fracLe_of_not_fracLt h
  unfold ratioQ
  exact (fracLe_iff_ratio (scorePair_den_pos b w) (scorePair_den_pos a w)).1 hle

theorem gcm_eq_some {word t : String} {poss : List String} {cutoff : Nat × Nat}
    (h : get_close_matches1 word poss cutoff = some t) :
    t ∈ poss ∧ fracLe cutoff (scorePair t.data word.data) ∧
      ∀ u ∈ poss, fracLe cutoff (scorePair u.data word.data) →
        ¬ tupLt (scorePair t.data word.data, t) (scorePair u.data word.data, u) := by
  unfold get_close_matches1 at h
  cases hfil : poss.filter
      (fun x => decide (fracLe cutoff (scorePair x.data word.data))) with
  | nil => rw [hfil] at h; cases h
  | cons c cs =>
    rw [hfil] at h
    have ht : (pyMax (scorePair c.data word.data, c)
        (cs.map fun x => (scorePair x.data word.data, x))).2 = t :=
      Option.some.inj h
    have hmemL : pyMax (scorePair c.data word.data, c)
        (cs.map fun x => (scorePair x.data word.data, x)) ∈
          (c :: cs).map fun x => (scorePair x.data word.data, x) :=
      pyMax_mem _ _
    obtain ⟨x, hxmem, hx⟩ := List.mem_map.1 hmemL
    have hx2 : x = t := by
      have := congrArg Prod.snd hx
      simpa [ht] using this
    subst hx2
    have hmt : pyMax (scorePair c.data word.data, c)
        (cs.map fun y => (scorePair y.data word.data, y)) =
          (scorePair x.data word.data, x) := hx.symm
    have htfil : x ∈ poss.filter
        (fun y => decide (fracLe cutoff (scorePair y.data word.data))) := by
      rw [hfil]; exact hxmem
    have htposs := List.mem_filter.1 htfil
    refine ⟨htposs.1, of_decide_eq_true htposs.2, ?_⟩
    intro u hu haccu
    have hufil : u ∈ poss.filter
        (fun x => decide (fracLe cutoff (scorePair x.data word.data))) :=
      List.mem_filter.2 ⟨hu, decide_eq_true haccu⟩
    rw [hfil] at hufil
    have huL : (scorePair u.data word.data, u) ∈
        (c :: cs).map fun y => (scorePair y.data word.data, y) :=
      List.mem_map_of_mem _ hufil
    have hpos : ∀ y ∈ (scorePair c.data word.data, c) ::
        (cs.map fun z => (scorePair z.data word.data, z)), 0 < y.1.2 := by
      intro y hy
      obtain ⟨a, -, rfl⟩ := List.mem_map.1
        (show y ∈ (c :: cs).map fun z => (scorePair z.data word.data, z) from hy)
      exact scorePair_den_pos _ _
    have := pyMax_not_lt _ _ hpos _ huL
    rwa [hmt] at this

theorem gcm_eq_none {word : String} {poss : List String} {cutoff : Nat × Nat}
    (h : ∀ u ∈ poss, ¬ fracLe cutoff (scorePair u.data word.data)) :
    get_close_matches1 word poss cutoff = none := by
  unfold get_close_matches1
  have hfil : poss.filter
      (fun x => decide (fracLe cutoff (scorePair x.data word.data))) = [] := by
    rw [List.filter_eq_nil_iff]
    intro a ha
    simpa using h a ha
  rw [hfil]

theorem gcm_congr {word : String} {p₁ p₂ : List String} {cutoff : Nat × Nat}
    (h : ∀ x : String, x ∈ p₁ ↔ x ∈ p₂) :
    get_close_matches1 word p₁ cutoff = get_close_matches1 word p₂ cutoff := by
  have hmemf : ∀ x, x ∈ p₁.filter
        (fun y => decide (fracLe cutoff (scorePair y.data word.data))) ↔
      x ∈ p₂.filter
        (fun y => decide (fracLe cutoff (scorePair y.data word.data))) := by
    intro x
    simp only [List.mem_filter]
    rw [h x]
  unfold get_close_matches1
  cases h1 : p₁.filter
      (fun y => decide (fracLe cutoff (scorePair y.data word.data))) with
  | nil =>
    cases h2 : p₂.filter
        (fun y => decide (fracLe cutoff (scorePair y.data word.data))) with
    | nil => rfl
    | cons d ds =>
      exfalso
      have := (hmemf d).2 (by rw [h2]; exact List.mem_cons_self _ _)
      rw [h1] at this
      cases this
  | cons c cs =>
    cases h2 : p₂.filter
        (fun y => decide (fracLe cutoff (scorePair y.data word.data))) with
    | nil =>
      exfalso
      have := (hmemf c).1 (by rw [h1]; exact List.mem_cons_self _ _)
      rw [h2] at this
      cases this
    | cons d ds =>
      have hpos1 : ∀ y ∈ (scorePair c.data word.data, c) ::
          (cs.map fun z => (scorePair z.data word.data, z)), 0 < y.1.2 := by
        intro y hy
        obtain ⟨a, -, rfl⟩ := List.mem_map.1
          (show y ∈ (c :: cs).map fun z => (scorePair z.data word.data, z) from hy)
        exact scorePair_den_pos _ _
      have hpos2 : ∀ y ∈ (scorePair d.data word.data, d) ::
          (ds.map fun z => (scorePair z.data word.data, z)), 0 < y.1.2 := by
        intro y hy
        obtain ⟨a, -, rfl⟩ := List.mem_map.1
          (show y ∈ (d :: ds).map fun z => (scorePair z.data word.data, z) from hy)
        exact scorePair_den_pos _ _
      have hm1 : pyMax (scorePair c.data word.data, c)
          (cs.map fun z => (scorePair z.data word.data, z)) ∈
            (c :: cs).map fun z => (scorePair z.data word.data, z) := pyMax_mem _ _
      have hm2 : pyMax (scorePair d.data word.data, d)
          (ds.map fun z => (scorePair z.data word.data, z)) ∈
            (d :: ds).map fun z => (scorePair z.data word.data, z) := pyMax_mem _ _
      have hmemL : ∀ y, (y ∈ (c :: cs).map fun z => (scorePair z.data word.data, z)) ↔
          (y ∈ (d :: ds).map fun z => (scorePair z.data word.data, z)) := by
        intro y
        constructor
        · intro hy
          obtain ⟨a, ha, rfl⟩ := List.mem_map.1 hy
          refine List.mem_map_of_mem _ ?_
          have : a ∈ p₂.filter
              (fun y => decide (fracLe cutoff (scorePair y.data word.data))) :=
            (hmemf a).1 (by rw [h1]; exact ha)
          rwa [h2] at this
        · intro hy
          obtain ⟨a, ha, rfl⟩ := List.mem_map.1 hy
          refine List.mem_map_of_mem _ ?_
          have : a ∈ p₁.filter
              (fun y => decide (fracLe cutoff (scorePair y.data word.data))) :=
            (hmemf a).2 (by rw [h2]; exact ha)
          rwa [h1] at this
      have hn12 := pyMax_not_lt _ _ hpos1 _ ((hmemL _).2 hm2)
      have hn21 := pyMax_not_lt _ _ hpos2 _ ((hmemL _).1 hm1)
      have heq := (tupLt_string_eq hn12 hn21).1
      show some (pyMax (scorePair c.data word.data, c)
          (cs.map fun z => (scorePair z.data word.data, z))).2 =
        some (pyMax (scorePair d.data word.data, d)
          (ds.map fun z => (scorePair z.data word.data, z))).2
      rw [heq]

set_option maxRecDepth 200000

/-! ## Claim theorems: geography reconciler -/

/-- C3: a dataset state name present verbatim in the canonical geojson name
set is never a key of the rename mapping, so reconciliation leaves it
unaltered. -/
theorem canonical_names_never_renamed (csv geo : List String) (s : String)
    (h : s ∈ geo) :
    (state_fix_map csv geo).lookup s = none ∧
      applyFix (state_fix_map csv geo) s = s := by
  have hnone : (state_fix_map csv geo).lookup s = none := by
    apply lookup_eq_none_of_keys
    intro p hp hps
    obtain ⟨k, v⟩ := p
    cases hps
    exact (mem_state_fix_map.1 hp).2.1 h
  refine ⟨hnone, ?_⟩
  unfold applyFix
  rw [hnone]

theorem canonical_names_never_renamed_witness :
    (state_fix_map ["Kerala", "Goa"] ["Kerala"]).lookup "Kerala" = none ∧
      applyFix (state_fix_map ["Kerala", "Goa"] ["Kerala"]) "Kerala" = "Kerala" :=
  canonical_names_never_renamed ["Kerala", "Goa"] ["Kerala"] "Kerala" (by decide)

/-- C4 counterexample: "Odisha" is a key of the manual-override table, yet on
a dataset whose canonical set also contains "Odisha" verbatim the reconciler
does not map it to its override value "Orissa" (it is not mismatched, so it
is left alone).  So "every dataset place name appearing in the
manual-override table is mapped to its override value" fails as stated. -/
theorem manual_entry_verbatim_not_renamed :
    manual_fix.lookup "Odisha" = some "Orissa" ∧
      state_fix_map ["Odisha"] ["Odisha"] = [] ∧
      applyFix (state_fix_map ["Odisha"] ["Odisha"]) "Odisha" = "Odisha" := by
  refine ⟨rfl, by decide, by decide⟩

/-- C4 amended: every MISMATCHED dataset place name (one not present verbatim
in the canonical set) that appears in the manual-override table is mapped to
its override value, regardless of any similarity score. -/
theorem manual_override_applied_to_mismatches (csv geo : List String)
    (s t : String) (hs : s ∈ csv) (hgeo : s ∉ geo)
    (hman : manual_fix.lookup s = some t) :
    (state_fix_map csv geo).lookup s = some t := by
  rw [lookup_state_fix_map hs hgeo]
  unfold fixFor
  rw [hman]

theorem manual_override_applied_witness :
    (state_fix_map ["Odisha", "Kerala"] ["Maharashtra", "Kerala"]).lookup
      "Odisha" = some "Orissa" :=
  manual_override_applied_to_mismatches ["Odisha", "Kerala"]
    ["Maharashtra", "Kerala"] "Odisha" "Orissa" (by decide) (by decide) (by decide)

/-- C5 counterexample: the matching is not case-insensitive, and acceptance
is at score `≥ 0.6`, not strictly above it.  "delhi" is fuzzily mapped to
canonical "Delhi", but "DELHI" — identical up to case — is left unmapped, so
the matching treats case-insensitively-equal names differently; and "abc"
is mapped to "abcdefg" although its similarity is exactly 3/5, which does
not exceed the 0.6 threshold. -/
theorem matcher_case_and_cutoff_behavior :
    (state_fix_map ["delhi"] ["Delhi"] = [("delhi", "Delhi")] ∧
      state_fix_map ["DELHI"] ["Delhi"] = []) ∧
    (state_fix_map ["abc"] ["abcdefg"] = [("abc", "abcdefg")] ∧
      ratioQ "abcdefg".data "abc".data = 3 / 5) := by
  refine ⟨⟨by decide, by decide⟩, by decide, ?_⟩
  have h : scorePair "abcdefg".data "abc".data = (6, 10) := by decide
  unfold ratioQ
  rw [h]
  norm_num

/-- C5 amended: for a mismatched name with no manual-override entry, the
reconciler accepts only the single best-scoring canonical candidate, only
when its (case-sensitive) similarity is at least the 0.6 threshold; when
every candidate scores below the threshold the name remains unmapped. -/
theorem matcher_best_match_characterization (csv geo : List String)
    (s : String) (hman : manual_fix.lookup s = none) (hgeo : s ∉ geo) :
    (∀ t, (state_fix_map csv geo).lookup s = some t →
      t ∈ geo ∧ (3 : ℚ) / 5 ≤ ratioQ t.data s.data ∧
        ∀ u ∈ geo, ratioQ u.data s.data ≤ ratioQ t.data s.data) ∧
    ((∀ u ∈ geo, ratioQ u.data s.data < (3 : ℚ) / 5) →
      (state_fix_map csv geo).lookup s = none) := by
  constructor
  · intro t ht
    have hchar := mem_state_fix_map.1 (mem_of_lookup_eq_some ht)
    have hfix : fixFor geo s = some t := hchar.2.2
    unfold fixFor at hfix
    rw [hman] at hfix
    obtain ⟨hmemt, hacc, hmax⟩ := gcm_eq_some hfix
    refine ⟨hmemt, cutoff_le_ratioQ_iff.1 hacc, ?_⟩
    intro u hu
    by_cases haccu : fracLe (3, 5) (scorePair u.data s.data)
    · have hnl := hmax u hu haccu
      unfold tupLt at hnl
      push_neg at hnl
      exact ratioQ_le_ratioQ_of_not_fracLt hnl.1
    · have hlt : ratioQ u.data s.data < (3 : ℚ) / 5 :=
        not_le.1 fun hge => haccu (cutoff_le_ratioQ_iff.2 hge)
      exact le_trans (le_of_lt hlt) (cutoff_le_ratioQ_iff.1 hacc)
  · intro hall
    by_cases hs : s ∈ csv
    · rw [lookup_state_fix_map hs hgeo]
      unfold fixFor
      rw [hman]
      exact gcm_eq_none fun u hu hacc =>
        absurd (cutoff_le_ratioQ_iff.1 hacc) (not_le.2 (hall u hu))
    · exact lookup_state_fix_map_of_not_mem_csv hs

theorem matcher_best_match_witness :
    "Punjab" ∈ ["Punjab", "Goa"] ∧
      (3 : ℚ) / 5 ≤ ratioQ "Punjab".data "Panjab".data ∧
      ∀ u ∈ ["Punjab", "Goa"],
        ratioQ u.data "Panjab".data ≤ ratioQ "Punjab".data "Panjab".data :=
  (matcher_best_match_characterization ["Panjab"] ["Punjab", "Goa"] "Panjab"
    (by decide) (by decide)).1 "Punjab" (by decide)

/-- C9 counterexample: with canonical-set iteration order ["abcy", "abcz"]
and the equally-scored candidates "abcy" and "abcz" for "abcx", the mapping
picks "abcz" — the lexicographically greatest candidate — not the first
match "abcy" in iteration order.  So the claimed tie-break rule fails. -/
theorem tie_broken_to_lexicographically_greatest :
    state_fix_map ["abcx"] ["abcy", "abcz"] = [("abcx", "abcz")] ∧
      ratioQ "abcy".data "abcx".data = ratioQ "abcz".data "abcx".data := by
  refine ⟨by decide, ?_⟩
  have h1 : scorePair "abcy".data "abcx".data = (6, 8) := by decide
  have h2 : scorePair "abcz".data "abcx".data = (6, 8) := by decide
  unfold ratioQ
  rw [h1, h2]

/-- C9 amended: the approximate-matching step is deterministic and does not
depend on the iteration order (or multiplicity) of the canonical name set:
two canonical lists with the same members yield the identical mapping.
(Score ties are broken toward the greatest `(score, name)` Python tuple,
i.e. the lexicographically greatest candidate name, as the counterexample
shows — not toward the first match in iteration order.) -/
theorem matcher_independent_of_iteration_order (csv geo₁ geo₂ : List String)
    (h : ∀ x : String, x ∈ geo₁ ↔ x ∈ geo₂) :
    state_fix_map csv geo₁ = state_fix_map csv geo₂ := by
  have hfix : ∀ x, fixFor geo₁ x = fixFor geo₂ x := by
    intro x
    unfold fixFor
    cases manual_fix.lookup x with
    | some t => rfl
    | none => exact gcm_congr h
  unfold state_fix_map
  have hfil : (csv.filter fun s => !(geo₁.contains s)) =
      (csv.filter fun s => !(geo₂.contains s)) := by
    apply List.filter_congr
    intro x _
    by_cases hm : x ∈ geo₁
    · rw [contains_eq_true_iff.2 hm, contains_eq_true_iff.2 ((h x).1 hm)]
    · rw [contains_eq_false_of_not_mem hm,
        contains_eq_false_of_not_mem fun hc => hm ((h x).2 hc)]
  rw [hfil]
  exact List.filterMap_congr fun x _ => by rw [hfix x]

theorem matcher_order_witness :
    state_fix_map ["Odisha", "Panjab"] ["Punjab", "Orissa"] =
      state_fix_map ["Odisha", "Panjab"] ["Orissa", "Punjab"] :=
  matcher_independent_of_iteration_order ["Odisha", "Panjab"]
    ["Punjab", "Orissa"] ["Orissa", "Punjab"]
    fun _ => (List.Perm.swap "Orissa" "Punjab" []).mem_iff

/-- C10: a mapping accepted via the approximate-matching branch always has
its target inside the canonical name set (so the choropleth geometry lookup
can find it), whereas a manual-override mapping is applied with no check
that its target is canonical: with canonical set ["Karnataka"], "Odisha" is
still mapped to "Orissa" even though "Orissa" is not canonical there. -/
theorem fuzzy_targets_canonical_manual_unchecked (csv geo : List String)
    (s t : String) (hman : manual_fix.lookup s = none)
    (h : (state_fix_map csv geo).lookup s = some t) :
    t ∈ geo ∧
      ((state_fix_map ["Odisha"] ["Karnataka"]).lookup "Odisha" =
          some "Orissa" ∧
        "Orissa" ∉ (["Karnataka"] : List String)) := by
  refine ⟨?_, by decide, by decide⟩
  have hchar := mem_state_fix_map.1 (mem_of_lookup_eq_some h)
  have hfix := hchar.2.2
  unfold fixFor at hfix
  rw [hman] at hfix
  exact (gcm_eq_some hfix).1

theorem fuzzy_targets_witness :
    "Kerala" ∈ ["Goa", "Kerala"] ∧
      ((state_fix_map ["Odisha"] ["Karnataka"]).lookup "Odisha" =
          some "Orissa" ∧
        "Orissa" ∉ (["Karnataka"] : List String)) :=
  fuzzy_targets_canonical_manual_unchecked ["Kerla"] ["Goa", "Kerala"]
    "Kerla" "Kerala" (by decide) (by decide)

/-- C6 counterexample: idempotence fails in general.  Against the canonical
set ["Oris"], the first pass maps "Odisha" to "Orissa" through the manual
table (whose target is not canonical here), and a second pass then fuzzily
maps "Orissa" to "Oris" — re-running reconciliation changes a place name
again. -/
theorem reconcile_not_idempotent_in_general :
    ((reconcile ["Oris"] (reconcile ["Oris"] odishaDataset)).rows.map
        Record.State) ≠
      ((reconcile ["Oris"] odishaDataset).rows.map Record.State) := by decide

/-- C6 amended: whenever every manual-override target is itself in the
canonical set (true of the deployed boundary source, which contains
"Orissa"), reconciliation is idempotent: a second construction-and-
application pass changes nothing. -/
theorem reconcile_idempotent_of_manual_targets_canonical (geo : List String)
    (ds : Dataset) (hman : ∀ p ∈ manual_fix, p.2 ∈ geo) :
    reconcile geo (reconcile geo ds) = reconcile geo ds := by
  set ds1 := reconcile geo ds with hds1
  have hrows1 : ds1.rows = ds.rows.map fun r =>
      { r with State := (applyFix
          (state_fix_map ((ds.rows.map Record.State).dedup) geo) r.State) } := by
    rw [hds1]
    simp only [reconcile, renameStates]
    split
    · next hm =>
      rw [hm]
      have h1 : List.map (fun r : Record =>
          { r with State := (applyFix [] r.State) }) ds.rows = ds.rows := by
        refine (List.map_congr_left fun r _ => ?_).trans (List.map_id ds.rows)
        show ({ r with State := applyFix [] r.State }) = id r
        rfl
      exact h1.symm
    · rfl
  have hstate : ∀ v ∈ ds1.rows.map Record.State, v ∉ geo →
      fixFor geo v = none := by
    intro v hv hvgeo
    rw [hrows1, List.map_map] at hv
    obtain ⟨r, hr, hveq⟩ := List.mem_map.1 hv
    have hveq' : (applyFix
        (state_fix_map ((ds.rows.map Record.State).dedup) geo) r.State) = v :=
      hveq
    cases hlk : (state_fix_map ((ds.rows.map Record.State).dedup) geo).lookup
        r.State with
    | some t =>
      have hvt : v = t := by
        rw [← hveq']
        unfold applyFix
        rw [hlk]
      subst hvt
      have hchar := mem_state_fix_map.1 (mem_of_lookup_eq_some hlk)
      have hfix := hchar.2.2
      unfold fixFor at hfix
      cases hl : manual_fix.lookup r.State with
      | some w =>
        rw [hl] at hfix
        cases hfix
        exact absurd (hman _ (mem_of_lookup_eq_some hl)) hvgeo
      | none =>
        rw [hl] at hfix
        exact absurd (gcm_eq_some hfix).1 hvgeo
    | none =>
      have hvr : v = r.State := by
        rw [← hveq']
        unfold applyFix
        rw [hlk]
      subst hvr
      have hcsv : r.State ∈ (ds.rows.map Record.State).dedup :=
        List.mem_dedup.2 (List.mem_map_of_mem _ hr)
      have hl2 := lookup_state_fix_map hcsv hvgeo
      rw [hlk] at hl2
      exact hl2.symm
  have hkey : state_fix_map ((ds1.rows.map Record.State).dedup) geo = [] := by
    unfold state_fix_map
    rw [List.filterMap_eq_nil_iff]
    intro a ha
    have hmemfil := List.mem_filter.1 ha
    have hamem : a ∈ ds1.rows.map Record.State := List.mem_dedup.1 hmemfil.1
    have hageo : a ∉ geo := by
      intro hg
      rw [contains_eq_true_iff.2 hg] at hmemfil
      simpa using hmemfil.2
    rw [Option.map_eq_none']
    exact hstate a hamem hageo
  show renameStates geo ds1 = ds1
  unfold renameStates
  rw [hkey]
  simp

theorem reconcile_idempotent_witness :
    reconcile ["Orissa", "Kerala"] (reconcile ["Orissa", "Kerala"]
        sampleDataset) =
      reconcile ["Orissa", "Kerala"] sampleDataset :=
  reconcile_idempotent_of_manual_targets_canonical ["Orissa", "Kerala"]
    sampleDataset (by decide)

/-! ## Claim theorems: aggregator and panels -/

theorem countOf_eq_count (l : Level) (rows : List Record) (gc : String × String) :
    countOf l rows gc.1 gc.2 =
      @List.count (String × String) instBEqOfDecidableEq gc (pairList l rows) := by
  unfold countOf pairList
  rw [← List.countP_eq_length_filter,
    @List.count_eq_countP _ instBEqOfDecidableEq, List.countP_map]
  apply List.countP_congr
  intro r _
  simp only [Function.comp_apply, Bool.and_eq_true, beq_iff_eq]
  rw [show (@BEq.beq _ instBEqOfDecidableEq (placeOf l r, r.Growth_status) gc) =
      decide ((placeOf l r, r.Growth_status) = gc) from rfl,
    decide_eq_true_eq, Prod.ext_iff]

theorem countP_fst_eq_totalOf (l : Level) (rows : List Record) (g : String) :
    (pairList l rows).countP (fun gc => gc.1 == g) = totalOf l rows g := by
  unfold pairList totalOf
  rw [List.countP_map, List.countP_eq_length_filter]
  rfl

/-- C1: within every group of the chosen geographic level, the per-category
counts produced by the aggregator sum to the total computed for that group
by the parallel group-by. -/
theorem agg_counts_sum_to_group_total (l : Level) (rows : List Record)
    (g : String) :
    (((tab1Agg l rows).filter fun a => a.place == g).map AggRow.count).sum =
      totalOf l rows g := by
  unfold tab1Agg
  rw [List.filter_map, List.map_map]
  show ((List.filter (fun gc : String × String => gc.1 == g)
      (pairList l rows).dedup).map
        (fun gc => countOf l rows gc.1 gc.2)).sum = totalOf l rows g
  have hcong : (List.filter (fun gc : String × String => gc.1 == g)
      (pairList l rows).dedup).map (fun gc => countOf l rows gc.1 gc.2) =
    (List.filter (fun gc : String × String => gc.1 == g)
      (pairList l rows).dedup).map
        (fun gc => @List.count (String × String) instBEqOfDecidableEq gc
          (pairList l rows)) :=
    List.map_congr_left fun gc _ => countOf_eq_count l rows gc
  rw [hcong, List.sum_map_count_dedup_filter_eq_countP, countP_fst_eq_totalOf]

theorem sum_map_hundred_div (xs : List (String × String))
    (f : String × String → Nat) (T : ℚ) :
    (xs.map fun x => 100 * (f x : ℚ) / T).sum =
      100 * (((xs.map f).sum : Nat) : ℚ) / T := by
  induction xs with
  | nil => simp
  | cons x xs ih =>
    simp only [List.map_cons, List.sum_cons, ih]
    push_cast
    ring

/-- C2: each aggregate row carries `percentage = 100 * count / total`, and
within every geographic group present in the data the percentages over its
growth-status categories sum to exactly 100 (over the rationals). -/
theorem agg_percentage_correct (l : Level) (rows : List Record) (g : String)
    (hg : g ∈ rows.map (placeOf l)) :
    (∀ a ∈ tab1Agg l rows,
      a.percentage = 100 * (a.count : ℚ) / (a.total : ℚ)) ∧
    (((tab1Agg l rows).filter fun a => a.place == g).map
      AggRow.percentage).sum = 100 := by
  have htotal_pos : 0 < totalOf l rows g := by
    obtain ⟨r, hr, hrg⟩ := List.mem_map.1 hg
    have hmem : r ∈ rows.filter fun q => placeOf l q == g :=
      List.mem_filter.2 ⟨hr, by rw [hrg]; exact beq_self_eq_true g⟩
    exact List.length_pos.2 (List.ne_nil_of_mem hmem)
  have hT0 : ((totalOf l rows g : Nat) : ℚ) ≠ 0 :=
    Nat.cast_ne_zero.2 (Nat.pos_iff_ne_zero.1 htotal_pos)
  constructor
  · intro a ha
    obtain ⟨gc, -, rfl⟩ := List.mem_map.1 ha
    rfl
  · unfold tab1Agg
    rw [List.filter_map, List.map_map]
    show ((List.filter (fun gc : String × String => gc.1 == g)
        (pairList l rows).dedup).map
          (fun gc => 100 * (countOf l rows gc.1 gc.2 : ℚ) /
            (totalOf l rows gc.1 : ℚ))).sum = 100
    have hcong : (List.filter (fun gc : String × String => gc.1 == g)
        (pairList l rows).dedup).map
          (fun gc => 100 * (countOf l rows gc.1 gc.2 : ℚ) /
            (totalOf l rows gc.1 : ℚ)) =
      (List.filter (fun gc : String × String => gc.1 == g)
        (pairList l rows).dedup).map
          (fun gc => 100 * ((@List.count (String × String) instBEqOfDecidableEq
              gc (pairList l rows) : Nat) : ℚ) /
            (totalOf l rows g : ℚ)) := by
      apply List.map_congr_left
      intro gc hgc
      have hfst : gc.1 = g := by
        have := (List.mem_filter.1 hgc).2
        exact beq_iff_eq.1 this
      rw [countOf_eq_count l rows gc, hfst]
    rw [hcong, sum_map_hundred_div, List.sum_map_count_dedup_filter_eq_countP,
      countP_fst_eq_totalOf, mul_div_assoc, div_self hT0, mul_one]

theorem agg_percentage_witness :
    (∀ a ∈ tab1Agg Level.State sampleDataset.rows,
      a.percentage = 100 * (a.count : ℚ) / (a.total : ℚ)) ∧
    (((tab1Agg Level.State sampleDataset.rows).filter
      fun a => a.place == "Kerala").map AggRow.percentage).sum = 100 :=
  agg_percentage_correct Level.State sampleDataset.rows "Kerala" (by decide)

/-- C7: every group produced by the group-by has at least one record, so the
`total` attached to every aggregate row is at least 1 and the percentage
computation never divides by zero. -/
theorem agg_total_positive (l : Level) (rows : List Record)
    (gc : String × String) (h : gc ∈ pairList l rows) :
    1 ≤ totalOf l rows gc.1 ∧ ∀ a ∈ tab1Agg l rows, 1 ≤ a.total := by
  have key : ∀ p : String × String, p ∈ pairList l rows →
      1 ≤ totalOf l rows p.1 := by
    intro p hp
    obtain ⟨r, hr, hrp⟩ := List.mem_map.1 hp
    have hfst : placeOf l r = p.1 := congrArg Prod.fst hrp
    have hmem : r ∈ rows.filter fun q => placeOf l q == p.1 :=
      List.mem_filter.2 ⟨hr, by rw [hfst]; exact beq_self_eq_true _⟩
    exact List.length_pos.2 (List.ne_nil_of_mem hmem)
  refine ⟨key gc h, ?_⟩
  intro a ha
  obtain ⟨p, hp, rfl⟩ := List.mem_map.1 ha
  exact key p (List.mem_dedup.1 hp)

theorem agg_total_positive_witness :
    1 ≤ totalOf Level.State sampleDataset.rows ("Kerala", "Stunted").1 ∧
      ∀ a ∈ tab1Agg Level.State sampleDataset.rows, 1 ≤ a.total :=
  agg_total_positive Level.State sampleDataset.rows ("Kerala", "Stunted")
    (by decide)

/-- C8: after the growth-status filter and the reconciliation rename pass,
running all five panels leaves every row and every column of the dataset
unchanged, except that the derived `Mother_BMI` column is added — and only
when both maternal columns exist. -/
theorem tabs_preserve_dataset_except_bmi (geo : List String) (raw : Dataset)
    (level : Level) (mal_type : String) :
    (runTabs level mal_type (prepare geo raw)).rows = (prepare geo raw).rows ∧
    (runTabs level mal_type (prepare geo raw)).hasMothersWeight =
      (prepare geo raw).hasMothersWeight ∧
    (runTabs level mal_type (prepare geo raw)).hasMothersHeight =
      (prepare geo raw).hasMothersHeight ∧
    (runTabs level mal_type (prepare geo raw)).hasAnemia =
      (prepare geo raw).hasAnemia ∧
    (runTabs level mal_type (prepare geo raw)).Mother_BMI =
      (if (prepare geo raw).hasMothersWeight &&
          (prepare geo raw).hasMothersHeight then
        some ((prepare geo raw).rows.map bmiOf)
      else (prepare geo raw).Mother_BMI) := by
  simp only [runTabs, tab1Run, tab2Run, tab3Run, tab4Run, tab5Run]
  split <;> simp

end Dashboard
